import Mathlib

/-!
Verification of the validator-set core of AnnChain
(`angine/types/validator_set.go`): the address-sorted registry, the weighted
round-robin proposer rotation and the +2/3 commit verifier.

Go `int64` values are modelled as `Int`; none of the verified properties
exercises 64-bit wrap-around, which the source itself marks as an unhandled
limitation ("TODO: consider validator Accum overflow").
-/

/-- Byte-string comparison mirroring Go `bytes.Compare`: lexicographic on byte
lists, a proper prefix comparing less. -/
def bytesCompare : List Nat → List Nat → Ordering
  | [], [] => .eq
  | [], _ :: _ => .lt
  | _ :: _, [] => .gt
  | a :: as, b :: bs =>
    if a < b then .lt else if b < a then .gt else bytesCompare as bs

theorem bytesCompare_eq_iff : ∀ {a b : List Nat}, bytesCompare a b = .eq ↔ a = b
  | [], [] => by simp [bytesCompare]
  | [], _ :: _ => by simp [bytesCompare]
  | _ :: _, [] => by simp [bytesCompare]
  | x :: xs, y :: ys => by
    simp only [bytesCompare]
    split_ifs with h1 h2
    · simp; omega
    · simp; omega
    · have hxy : x = y := by omega
      simp [hxy, bytesCompare_eq_iff]

theorem bytesCompare_self (a : List Nat) : bytesCompare a a = .eq :=
  bytesCompare_eq_iff.mpr rfl

theorem bytesCompare_swap : ∀ (a b : List Nat), (bytesCompare a b).swap = bytesCompare b a
  | [], [] => rfl
  | [], _ :: _ => rfl
  | _ :: _, [] => rfl
  | x :: xs, y :: ys => by
    simp only [bytesCompare]
    split_ifs with h1 h2 <;> simp [Ordering.swap] <;> try omega
    all_goals
      first
      | exact bytesCompare_swap xs ys
      | omega

theorem bytesCompare_lt_trans :
    ∀ (a b c : List Nat), bytesCompare a b = .lt → bytesCompare b c = .lt →
      bytesCompare a c = .lt
  | [], [], _, h1, _ => by simp [bytesCompare] at h1
  | [], _ :: _, [], _, h2 => by simp [bytesCompare] at h2
  | [], _ :: _, _ :: _, _, _ => by simp [bytesCompare]
  | _ :: _, [], _, h1, _ => by simp [bytesCompare] at h1
  | _ :: _, _ :: _, [], _, h2 => by simp [bytesCompare] at h2
  | x :: xs, y :: ys, z :: zs, h1, h2 => by
    simp only [bytesCompare] at h1 h2 ⊢
    split_ifs at h1 h2 ⊢ <;>
      first
      | rfl
      | omega
      | exact bytesCompare_lt_trans xs ys zs h1 h2
      | simp_all

/-- The strict address order of `ValidatorsByAddress.Less`
(src lines 327-329): `bytes.Compare(a, b) == -1`. -/
def addrLt (a b : List Nat) : Prop := bytesCompare a b = .lt

/-- The reflexive closure of `addrLt`: `bytes.Compare(a, b) <= 0`. -/
def addrLe (a b : List Nat) : Prop := bytesCompare a b ≠ .gt

instance (a b : List Nat) : Decidable (addrLt a b) := by
  unfold addrLt; infer_instance

instance (a b : List Nat) : Decidable (addrLe a b) := by
  unfold addrLe; infer_instance

theorem addrLe_iff (a b : List Nat) : addrLe a b ↔ a = b ∨ addrLt a b := by
  unfold addrLe addrLt
  rw [← bytesCompare_eq_iff (a := a) (b := b)]
  cases h : bytesCompare a b <;> simp

theorem addrLt_trans {a b c : List Nat} : addrLt a b → addrLt b c → addrLt a c :=
  bytesCompare_lt_trans a b c

theorem addrLt_irrefl (a : List Nat) : ¬ addrLt a a := by
  unfold addrLt
  simp [bytesCompare_self]

theorem addrLt_asymm {a b : List Nat} : addrLt a b → ¬ addrLt b a := by
  intro h1 h2
  exact addrLt_irrefl a (addrLt_trans h1 h2)

theorem addrLe_total (a b : List Nat) : addrLe a b ∨ addrLe b a := by
  unfold addrLe
  have h := bytesCompare_swap a b
  cases hab : bytesCompare a b <;> simp [hab] at h ⊢ <;> simp [← h, Ordering.swap]

theorem addrLe_trans {a b c : List Nat} : addrLe a b → addrLe b c → addrLe a c := by
  rw [addrLe_iff, addrLe_iff, addrLe_iff]
  rintro (rfl | h1) (rfl | h2)
  · exact Or.inl rfl
  · exact Or.inr h2
  · exact Or.inr h1
  · exact Or.inr (addrLt_trans h1 h2)

/-- Write position `i` of a list, leaving the list unchanged out of range
(in-range use is established separately wherever it matters). -/
def lset {α : Type} : List α → Nat → α → List α
  | [], _, _ => []
  | _ :: xs, 0, b => b :: xs
  | x :: xs, n + 1, b => x :: lset xs n b

theorem length_lset {α : Type} : ∀ (l : List α) (i : Nat) (b : α),
    (lset l i b).length = l.length
  | [], _, _ => rfl
  | _ :: _, 0, _ => rfl
  | _ :: xs, n + 1, b => by simp [lset, length_lset xs n b]

theorem mem_lset {α : Type} : ∀ (l : List α) (i : Nat) (b : α) (x : α),
    x ∈ lset l i b → x ∈ l ∨ x = b
  | [], _, _, _, h => Or.inl h
  | _ :: _, 0, _, x, h => by
    rcases List.mem_cons.mp h with h | h
    · exact Or.inr h
    · exact Or.inl (List.mem_cons_of_mem _ h)
  | y :: xs, n + 1, b, x, h => by
    rcases List.mem_cons.mp h with h | h
    · exact Or.inl (h ▸ List.mem_cons_self y xs)
    · rcases mem_lset xs n b x h with h | h
      · exact Or.inl (List.mem_cons_of_mem _ h)
      · exact Or.inr h

theorem get?_lset_self {α : Type} : ∀ (l : List α) (i : Nat) (b : α),
    i < l.length → (lset l i b).get? i = some b
  | [], i, _, h => by simp at h
  | _ :: _, 0, _, _ => rfl
  | _ :: xs, n + 1, b, h => by
    simp only [lset, List.get?]
    exact get?_lset_self xs n b (by simpa using h)

theorem get?_lset_ne {α : Type} : ∀ (l : List α) (i j : Nat) (b : α),
    j ≠ i → (lset l i b).get? j = l.get? j
  | [], _, _, _, _ => rfl
  | _ :: _, 0, 0, _, h => absurd rfl h
  | _ :: _, 0, _ + 1, _, _ => rfl
  | _ :: _, _ + 1, 0, _, _ => rfl
  | _ :: xs, n + 1, m + 1, b, h => by
    simp only [lset, List.get?]
    exact get?_lset_ne xs n m b (by omega)

theorem lset_of_get? {α : Type} : ∀ (l : List α) (i : Nat) (b : α),
    l.get? i = some b → lset l i b = l
  | [], _, _, h => by simp at h
  | _ :: _, 0, _, h => by
    simp only [List.get?] at h
    simp [lset, Option.some_inj.mp h]
  | x :: xs, n + 1, b, h => by
    simp only [List.get?] at h
    simp [lset, lset_of_get? xs n b h]

theorem map_lset {α β : Type} (f : α → β) :
    ∀ (l : List α) (i : Nat) (b : α),
      (lset l i b).map f = lset (l.map f) i (f b)
  | [], _, _ => rfl
  | _ :: _, 0, _ => rfl
  | x :: xs, n + 1, b => by simp [lset, map_lset f xs n b]

theorem getD_get?_mem {α : Type} {l : List α} {i : Nat} (d : α) (h : i < l.length) :
    (l.get? i).getD d ∈ l := by
  rw [List.get?_eq_get h]
  exact List.get_mem l _ _


/-- Modelled from the spec: the `Validator` record (§3; defined in
`validator.go`, which is not under src/): a lexicographically comparable
address, an opaque public-key handle, an integer voting power and the mutable
rotation accumulator `accum`. -/
structure Validator where
  address : List Nat
  pubKey : Nat
  votingPower : Int
  accum : Int
deriving DecidableEq

instance : Inhabited Validator := ⟨⟨[], 0, 0, 0⟩⟩

/-- Modelled from the spec: `Validator.Copy` (validator.go, not under src/;
§3: "every read from the Registry must yield an independent copy") — at value
level a field-for-field copy. -/
def Validator.Copy (v : Validator) : Validator :=
  { address := v.address, pubKey := v.pubKey
    votingPower := v.votingPower, accum := v.accum }

@[simp]
theorem Validator.Copy_eq (v : Validator) : v.Copy = v := rfl

@[simp]
theorem map_Copy_eq : ∀ l : List Validator, l.map Validator.Copy = l
  | [] => rfl
  | x :: xs => by simp [map_Copy_eq xs]

/-- Modelled from the spec: `Validator.CompareAccum` (validator.go, not under
src/) — the tie-break comparator applied by the linear scan in `Proposer`
(§4.1, §4.3): greater accum wins and equal accums are broken in favour of the
smaller address; a nil receiver yields the other validator. -/
def compareAccum : Option Validator → Validator → Validator
  | none, w => w
  | some v, w =>
    if w.accum < v.accum then v
    else if v.accum < w.accum then w
    else if bytesCompare v.address w.address = .lt then v else w

/-- The key pushed into the rotation heap for a validator,
`accumComparable(val.Accum)` (src lines 86, 97): the accum and nothing else. -/
def accumKey (v : Validator) : Int := v.accum

/-- `accumComparable.Less` (src lines 343-345): `int64(ac) > int64(o)`, so a
greater accum ranks higher in the heap. The comparison consults only the two
accum keys. -/
def accumCompLess (ac o : Int) : Bool := decide (o < ac)

/-!
The priority queue. Modelled from the spec: `IncrementAccum` uses the
go-common `Heap` (imported from `module/lib/go-common`, not under src/), the
max-priority queue of spec §4.2 with push / peek-max / update-key. It is
realized here, as in Go, as an array binary heap in the manner of Go's
`container/heap`: entries live in a list with the best entry at index 0, the
children of index `i` at `2i+1` and `2i+2`, and priorities compared by
`accumCompLess`. Entry values are `Nat` handles (the positions of the
validators they stand for); keys are `accumComparable` values.
-/

/-- The key stored at heap slot `i` (junk `0` out of range; every use is in
range). -/
def heapKeyAt (l : List (Nat × Int)) (i : Nat) : Int := ((l.get? i).getD (0, 0)).2

/-- Sift the entry at the given index up towards the root until its parent
ranks at least as high, as in `container/heap.up` (the parent of `j + 1` is
`j / 2`). The `fuel` argument only bounds the recursion for structural
termination; every call below supplies at least `index + 1`, which is never
exhausted since the index strictly decreases. -/
def heapSiftUp : Nat → List (Nat × Int) → Nat → List (Nat × Int)
  | 0, l, _ => l
  | _ + 1, l, 0 => l
  | fuel + 1, l, j + 1 =>
    if accumCompLess (heapKeyAt l (j + 1)) (heapKeyAt l (j / 2)) then
      heapSiftUp fuel
        (lset (lset l (j / 2) ((l.get? (j + 1)).getD (0, 0))) (j + 1)
          ((l.get? (j / 2)).getD (0, 0)))
        (j / 2)
    else l

/-- Choose the higher-ranking of the two children starting at slot `j1`, as in
`container/heap.down`. -/
def pickChild (l : List (Nat × Int)) (j1 : Nat) : Nat :=
  if j1 + 1 < l.length ∧ accumCompLess (heapKeyAt l (j1 + 1)) (heapKeyAt l j1) then j1 + 1
  else j1

theorem pickChild_bounds (l : List (Nat × Int)) (j1 : Nat) (h : j1 < l.length) :
    j1 ≤ pickChild l j1 ∧ pickChild l j1 < l.length := by
  unfold pickChild
  split
  · omega
  · omega

/-- Sift the entry at index `i` down until no child ranks higher, as in
`container/heap.down`. The `fuel` argument only bounds the recursion for
structural termination; every call below supplies the heap size, which is
never exhausted since the index strictly increases while staying in range. -/
def heapSiftDown : Nat → List (Nat × Int) → Nat → List (Nat × Int)
  | 0, l, _ => l
  | fuel + 1, l, i =>
    if 2 * i + 1 < l.length then
      if accumCompLess (heapKeyAt l (pickChild l (2 * i + 1))) (heapKeyAt l i) then
        heapSiftDown fuel
          (lset (lset l i ((l.get? (pickChild l (2 * i + 1))).getD (0, 0)))
            (pickChild l (2 * i + 1)) ((l.get? i).getD (0, 0)))
          (pickChild l (2 * i + 1))
      else l
    else l

/-- `Heap.Push` (go-common): append the entry and sift it up. -/
def heapPush (l : List (Nat × Int)) (v : Nat) (k : Int) : List (Nat × Int) :=
  heapSiftUp (l.length + 1) (l ++ [(v, k)]) l.length

/-- `Heap.Peek` (go-common): the value of the root entry; `none` on an empty
heap (where Go's `Peek().(*Validator)` assertion would panic). -/
def heapPeek (l : List (Nat × Int)) : Option Nat := l.head?.map Prod.fst

/-- `Heap.Update` (go-common) as used at src line 97: replace the root entry —
the entry just peeked — with the given value and key, then restore heap order
(`heap.Fix` at the root sifts down). -/
def heapUpdateTop (l : List (Nat × Int)) (v : Nat) (k : Int) : List (Nat × Int) :=
  heapSiftDown l.length (lset l 0 (v, k)) 0

theorem length_heapSiftUp :
    ∀ (fuel : Nat) (l : List (Nat × Int)) (j : Nat),
      (heapSiftUp fuel l j).length = l.length
  | 0, _, _ => rfl
  | _ + 1, _, 0 => rfl
  | fuel + 1, l, j + 1 => by
    simp only [heapSiftUp]
    split
    · rw [length_heapSiftUp fuel]
      simp only [length_lset]
    · rfl

theorem length_heapSiftDown :
    ∀ (fuel : Nat) (l : List (Nat × Int)) (i : Nat),
      (heapSiftDown fuel l i).length = l.length
  | 0, _, _ => rfl
  | fuel + 1, l, i => by
    simp only [heapSiftDown]
    split
    · split
      · rw [length_heapSiftDown fuel]
        simp only [length_lset]
      · rfl
    · rfl

theorem length_heapPush (l : List (Nat × Int)) (v : Nat) (k : Int) :
    (heapPush l v k).length = l.length + 1 := by
  rw [heapPush, length_heapSiftUp]
  simp

theorem length_heapUpdateTop (l : List (Nat × Int)) (v : Nat) (k : Int) :
    (heapUpdateTop l v k).length = l.length := by
  rw [heapUpdateTop, length_heapSiftDown, length_lset]

theorem forall_lset {α : Type} {P : α → Prop} {l : List α} {i : Nat} {b : α}
    (h : ∀ x ∈ l, P x) (hb : P b) : ∀ x ∈ lset l i b, P x := by
  intro x hx
  rcases mem_lset l i b x hx with hx | rfl
  · exact h x hx
  · exact hb

theorem forall_heapSiftUp {P : Nat × Int → Prop} :
    ∀ (fuel : Nat) (l : List (Nat × Int)) (j : Nat), j < l.length →
      (∀ x ∈ l, P x) → ∀ x ∈ heapSiftUp fuel l j, P x
  | 0, _, _, _, h => h
  | _ + 1, _, 0, _, h => h
  | fuel + 1, l, j + 1, hj, h => by
    simp only [heapSiftUp]
    split
    · exact forall_heapSiftUp fuel _ _ (by simp only [length_lset]; omega)
        (forall_lset (forall_lset h (h _ (getD_get?_mem _ hj)))
          (h _ (getD_get?_mem _ (by omega))))
    · exact h

theorem forall_heapSiftDown {P : Nat × Int → Prop} :
    ∀ (fuel : Nat) (l : List (Nat × Int)) (i : Nat),
      (∀ x ∈ l, P x) → ∀ x ∈ heapSiftDown fuel l i, P x
  | 0, _, _, h => h
  | fuel + 1, l, i, h => by
    simp only [heapSiftDown]
    split
    · split
      · rename_i hlen hcmp
        have hb := pickChild_bounds l (2 * i + 1) hlen
        exact forall_heapSiftDown fuel _ _
          (forall_lset (forall_lset h (h _ (getD_get?_mem _ (by omega))))
            (h _ (getD_get?_mem _ (by omega))))
      · exact h
    · exact h

theorem forall_heapPush {P : Nat × Int → Prop} (l : List (Nat × Int)) (v : Nat) (k : Int)
    (h : ∀ x ∈ l, P x) (hv : P (v, k)) : ∀ x ∈ heapPush l v k, P x := by
  apply forall_heapSiftUp
  · simp
  · intro x hx
    rcases List.mem_append.mp hx with hx | hx
    · exact h x hx
    · rcases List.mem_singleton.mp hx with rfl
      exact hv

theorem forall_heapUpdateTop {P : Nat × Int → Prop} (l : List (Nat × Int)) (v : Nat) (k : Int)
    (h : ∀ x ∈ l, P x) (hv : P (v, k)) : ∀ x ∈ heapUpdateTop l v k, P x := by
  apply forall_heapSiftDown
  exact forall_lset h hv

theorem heapPeek_mem {l : List (Nat × Int)} {x : Nat} (h : heapPeek l = some x) :
    ∃ k, (x, k) ∈ l := by
  cases l with
  | nil => simp [heapPeek] at h
  | cons p rest =>
    simp only [heapPeek, List.head?, Option.map_some', Option.some_inj] at h
    exact ⟨p.2, by rw [← h]; exact List.mem_cons_self _ _⟩

theorem heapPeek_isSome_of_ne_nil {l : List (Nat × Int)} (h : l ≠ []) :
    ∃ x, heapPeek l = some x := by
  cases l with
  | nil => exact absurd rfl h
  | cons p rest => exact ⟨p.1, rfl⟩

/-- The member order of `ValidatorsByAddress` (src lines 321-335) extended to
its reflexive closure, as used to model Go's `sort.Sort`. -/
def valLe (u v : Validator) : Prop := addrLe u.address v.address

/-- The strict member order `ValidatorsByAddress.Less` (src lines 327-329). -/
def valLt (u v : Validator) : Prop := addrLt u.address v.address

instance (u v : Validator) : Decidable (valLe u v) := by
  unfold valLe; infer_instance

instance (u v : Validator) : Decidable (valLt u v) := by
  unfold valLt; infer_instance

instance : IsTotal Validator valLe := ⟨fun a b => addrLe_total a.address b.address⟩

instance : IsTrans Validator valLe := ⟨fun _ _ _ => addrLe_trans⟩

/-- The `ValidatorSet` record (src lines 43-49): the address-sorted member list
plus the two lazily computed caches. Go's nil proposer cache is `none`; the
`totalVotingPower` cache uses `0` as its unset sentinel, as in the source. -/
structure ValidatorSet where
  validators : List Validator
  proposer : Option Validator
  totalVotingPower : Int
deriving DecidableEq

/-- `genValidatorSet` (src lines 59-69): copy the given validators, sort them
by address, and build a set with empty caches. Go's `sort.Sort` is an unstable
comparison sort over `ValidatorsByAddress.Less`; it is modelled by insertion
sort over the reflexive closure `valLe`, which agrees with every Go run on
every input whose addresses are distinct (for tied addresses Go leaves the
relative order of the tied records unspecified). -/
def genValidatorSet (vals : List Validator) : ValidatorSet :=
  { validators := (vals.map Validator.Copy).insertionSort valLe
    proposer := none
    totalVotingPower := 0 }

/-- `TotalVotingPower` (src lines 145-152) — the returned value: the cached
total when the cache is set (nonzero), otherwise the sum of the members'
voting powers, which the call also stores into the cache. -/
def ValidatorSet.totalVotingPowerVal (vs : ValidatorSet) : Int :=
  if vs.totalVotingPower = 0 then (vs.validators.map Validator.votingPower).sum
  else vs.totalVotingPower

/-- Phase 1 of `IncrementAccum` (src lines 84-87): add `votingPower * times` to
every member's accum. -/
def incrementPhase1 (times : Int) (vals : List Validator) : List Validator :=
  vals.map fun v => { v with accum := v.accum + v.votingPower * times }

/-- The pushes of src lines 84-87: every member enters the heap in slice order
(ascending address), keyed by its post-phase-1 accum; the heap entry for the
member at position `i` carries the handle `i`. -/
def buildHeap : List Validator → Nat → List (Nat × Int) → List (Nat × Int)
  | [], _, h => h
  | v :: vs, i, h => buildHeap vs (i + 1) (heapPush h i (accumKey v))

/-- The decrement loop of `IncrementAccum` (src lines 89-98): `fuel` counts the
iterations still to run (`int(times)` at the start) and `i` the current
iteration index. On the iteration with `i == deTime` the peeked validator is
recorded as proposer. `none` models the Go panic of `Peek().(*Validator)` on
an empty heap; the inner `none` branch (a heap handle out of range) is
unreachable, as proved below. -/
def incrementLoop (total : Int) (deTime : Int) :
    Nat → Nat → List Validator → List (Nat × Int) → Option Nat →
    Option (List Validator × Option Nat × List (Nat × Int))
  | 0, _, vals, heap, prop => some (vals, prop, heap)
  | fuel + 1, i, vals, heap, prop =>
    match heapPeek heap with
    | none => none
    | some idx =>
      match vals.get? idx with
      | none => none
      | some mostest =>
        incrementLoop total deTime fuel (i + 1)
          (lset vals idx { mostest with accum := mostest.accum - total })
          (heapUpdateTop heap idx (mostest.accum - total))
          (if (i : Int) = deTime then some idx else prop)

/-- `IncrementAccum` (src lines 81-99). `none` models the panic on peeking an
empty heap (empty member list with `times ≥ 1`). `TotalVotingPower()` is
evaluated once up front: its value is loop invariant and the first in-loop
call fills the cache. The proposer cache ends up holding the validator
selected on the final iteration with its accum as of the end of the call (in
Go the cache is a pointer into the member slice); when the loop body never
runs (`times ≤ 0`) the cache keeps its previous value, as in Go. -/
def ValidatorSet.IncrementAccum (vs : ValidatorSet) (times : Int) : Option ValidatorSet :=
  let vals1 := incrementPhase1 times vs.validators
  let total := ValidatorSet.totalVotingPowerVal { vs with validators := vals1 }
  match incrementLoop total (times - 1) times.toNat 0 vals1 (buildHeap vals1 0 []) none with
  | none => none
  | some (vals2, propIdx, _) =>
    some { validators := vals2
           proposer := match propIdx with
                       | none => vs.proposer
                       | some idx => vals2.get? idx
           totalVotingPower := total }

/-- `NewValidatorSet` (src lines 51-57). The Go parameter is a slice that may
be nil; `none` models a nil slice, which skips the initial rotation step. Any
non-nil slice performs `IncrementAccum(1)` — which for a non-nil but empty
slice faults on the empty heap, modelled by a `none` result. -/
def NewValidatorSet (vals : Option (List Validator)) : Option ValidatorSet :=
  let vs := genValidatorSet (vals.getD [])
  match vals with
  | none => some vs
  | some _ => vs.IncrementAccum 1

/-- `JSONBytes` (src lines 101-103): `encoding/json` is external, so the
serialized form is modelled by its content — the member list in stored order
(§6: "serializes as an ordered list of validator records"). -/
def ValidatorSet.JSONBytes (vs : ValidatorSet) : List Validator := vs.validators

/-- `ValSetFromJsonBytes` (src lines 71-78), applied to an already-decoded
record list: `json.Unmarshal` is external and `none` models its failure; on
success the set is rebuilt by `genValidatorSet`. -/
def ValSetFromJsonBytes (data : Option (List Validator)) : Option ValidatorSet :=
  match data with
  | none => none
  | some vset => some (genValidatorSet vset)

/-- `Copy` (src lines 105-116) at value level: members copied, both caches
carried over. (At pointer level Go carries the proposer cache as a pointer
into the original's member objects; the pointer-level model below captures
that.) -/
def ValidatorSet.Copy (vs : ValidatorSet) : ValidatorSet :=
  { validators := vs.validators.map Validator.Copy
    proposer := vs.proposer
    totalVotingPower := vs.totalVotingPower }

/-- Go `sort.Search` (used at src lines 119, 126, 179, 217) on the interval
`[i, j)`: binary search returning, for a monotone predicate, the least index
at which `f` holds (`j` when none). Go computes the probe as `(i+j)/2`, equal
to `i + (j-i)/2`. -/
def sortSearchGo : Nat → (Nat → Bool) → Nat → Nat → Nat
  | 0, _, i, _ => i
  | fuel + 1, f, i, j =>
    if i < j then
      if f (i + (j - i) / 2) then sortSearchGo fuel f i (i + (j - i) / 2)
      else sortSearchGo fuel f (i + (j - i) / 2 + 1) j
    else i

/-- `sort.Search(n, f)`. The fuel `n` only bounds the recursion for structural
termination; it is never exhausted since the interval width at least halves on
every probe. -/
def sortSearch (n : Nat) (f : Nat → Bool) : Nat := sortSearchGo n f 0 n

/-- The search predicate `bytes.Compare(address, vals[i].Address) <= 0` shared
by `HasAddress`, `GetByAddress`, `Add` and `Remove`. -/
def searchPred (vals : List Validator) (address : List Nat) (i : Nat) : Bool :=
  decide (bytesCompare address ((vals.get? i).getD default).address ≠ .gt)

/-- The index computed by the binary search in `HasAddress` / `GetByAddress` /
`Add` / `Remove`. -/
def ValidatorSet.searchIdx (vs : ValidatorSet) (address : List Nat) : Nat :=
  sortSearch vs.validators.length (searchPred vs.validators address)

/-- `HasAddress` (src lines 118-123). -/
def ValidatorSet.HasAddress (vs : ValidatorSet) (address : List Nat) : Bool :=
  decide (vs.searchIdx address ≠ vs.validators.length) &&
    decide (bytesCompare ((vs.validators.get? (vs.searchIdx address)).getD default).address address = .eq)

/-- `GetByAddress` (src lines 125-134): the found index with a copy of the
member, or `(0, none)` when absent. -/
def ValidatorSet.GetByAddress (vs : ValidatorSet) (address : List Nat) : Nat × Option Validator :=
  if vs.searchIdx address ≠ vs.validators.length ∧
      bytesCompare ((vs.validators.get? (vs.searchIdx address)).getD default).address address = .eq then
    (vs.searchIdx address, (vs.validators.get? (vs.searchIdx address)).map Validator.Copy)
  else (0, none)

/-- `GetByIndex` (src lines 136-139): address and copy of the member at the
index; `none` models the Go out-of-range fault. -/
def ValidatorSet.GetByIndex (vs : ValidatorSet) (index : Nat) : Option (List Nat × Validator) :=
  (vs.validators.get? index).map fun v => (v.address, v.Copy)

/-- `Size` (src lines 141-143). -/
def ValidatorSet.Size (vs : ValidatorSet) : Nat := vs.validators.length

/-- `Add` (src lines 177-201): insert a copy at the sorted position; `false`
and no change when the address is already present; both caches invalidated on
success. Result is (added, new set). -/
def ValidatorSet.Add (vs : ValidatorSet) (val : Validator) : Bool × ValidatorSet :=
  let v := val.Copy
  let idx := vs.searchIdx v.address
  if idx = vs.validators.length then
    (true, { validators := vs.validators ++ [v], proposer := none, totalVotingPower := 0 })
  else if bytesCompare ((vs.validators.get? idx).getD default).address v.address = .eq then
    (false, vs)
  else
    (true, { validators := vs.validators.take idx ++ v :: vs.validators.drop idx
             proposer := none
             totalVotingPower := 0 })

/-- `Update` (src lines 203-214): replace the member found by `GetByAddress`
with a copy of the given validator; `false` and no change when absent; caches
invalidated on success. -/
def ValidatorSet.Update (vs : ValidatorSet) (val : Validator) : Bool × ValidatorSet :=
  match vs.GetByAddress val.address with
  | (_, none) => (false, vs)
  | (index, some _) =>
    (true, { validators := lset vs.validators index val.Copy
             proposer := none
             totalVotingPower := 0 })

/-- `Remove` (src lines 216-234): delete the member with the given address if
present, returning it with `true`; caches invalidated on success. -/
def ValidatorSet.Remove (vs : ValidatorSet) (address : List Nat) :
    Option Validator × Bool × ValidatorSet :=
  let idx := vs.searchIdx address
  if idx = vs.validators.length ∨
      bytesCompare ((vs.validators.get? idx).getD default).address address ≠ .eq then
    (none, false, vs)
  else
    (vs.validators.get? idx, true,
     { validators := vs.validators.take idx ++ vs.validators.drop (idx + 1)
       proposer := none
       totalVotingPower := 0 })

/-- `Proposer` (src lines 154-164): an empty set yields the defined
"no validators" result (nil); otherwise the cached proposer — recomputed by
the `CompareAccum` linear scan when the cache is empty — is returned as a
copy. (Go also stores a recomputed value back into the cache; the returned
value is the same.) -/
def ValidatorSet.Proposer (vs : ValidatorSet) : Option Validator :=
  if vs.validators = [] then none
  else
    match vs.proposer with
    | some p => some p.Copy
    | none =>
      (vs.validators.foldl (fun acc v => some (compareAccum acc v)) none).map Validator.Copy

/-- `Hash` (src lines 166-175): nil for the empty set, otherwise the Merkle
root over the members in stored order. `merkle.SimpleHashFromHashables` and
the per-member hash live outside src/, so the leaf hash and the root combiner
are abstract parameters; everything proved about `Hash` holds for every choice
of the two. -/
def ValidatorSet.Hash (leaf : Validator → List Nat) (root : List (List Nat) → List Nat)
    (vs : ValidatorSet) : Option (List Nat) :=
  if vs.validators = [] then none else some (root (vs.validators.map leaf))

/-!
The commit verifier. `VerifyCommit` (src lines 245-291) is in src/; the shapes
it consumes are external collaborators (spec §3, §6): the vote-type
enumeration, block identifiers, the commit's per-validator-index precommit
slots, and the sign-bytes/signature-check pipeline
(`SignBytes` + `PubKey.VerifyBytes`), which is abstracted as a boolean
verification function passed in as a parameter.
-/

/-- Modelled from the spec: the vote-type enumeration
(§6: "vote-type enumeration {prevote, precommit, …}"). -/
inductive VoteType where
  | prevote
  | precommit
  | other
deriving DecidableEq

/-- Modelled from the spec: a block identifier (§6: "block identifier
(hash + parts)"); only its decidable equality (`BlockID.Equals`) matters
here. -/
structure BlockID where
  hash : List Nat
  partsHash : List Nat
deriving DecidableEq

/-- Modelled from the spec: the payload of a precommit vote (§3: "each present
precommit carries height, round, a vote type tag, a target block identifier,
and a signature"). -/
structure VoteData where
  height : Int
  round : Int
  voteType : VoteType
  blockID : BlockID
deriving DecidableEq

/-- A present precommit: payload plus signature bytes. -/
structure Precommit where
  data : VoteData
  signature : List Nat
deriving DecidableEq

/-- Modelled from the spec: the commit structure (§3: "height, round, target
block identifier, and a per-validator-index sequence of optional precommit
votes (a slot may be empty)"); `CommitCache` itself is not under src/. The
target block identifier is unread by `VerifyCommit` and omitted. -/
structure Commit where
  height : Int
  round : Int
  precommits : List (Option Precommit)
deriving DecidableEq

deriving instance DecidableEq for Except

/-- The typed failures of `VerifyCommit` (src lines 248, 251, 264, 267, 270,
276, 288), carrying the data the Go error messages report. -/
inductive VerifyErr where
  | wrongSetSize (setSize precommitCount : Nat)
  | wrongHeight (expected got : Int)
  | wrongRound (expected got : Int)
  | notPrecommit (idx : Nat)
  | invalidSignature (p : Precommit)
  | insufficientVotingPower (got needed : Int)
deriving DecidableEq

/-- The signature check abstracted (spec §6, sign-bytes canonicalization and
`PubKey.VerifyBytes` are external): given the public-key handle, the chain
identifier, the vote payload and the signature bytes, decide validity. -/
def SigVerifier : Type := Nat → String → VoteData → List Nat → Bool

/-- Go integer division (`/` on `int64` truncates toward zero), as in the
threshold expression `TotalVotingPower()*2/3`. -/
def goDiv (a b : Int) : Int := Int.tdiv a b

/-- The loop of `VerifyCommit` (src lines 257-283) over the precommit slots,
each paired with the validator `GetByIndex` resolves for it: absent slots are
skipped; a present precommit fails the call on a height, round, vote-type or
signature violation; a validly signed precommit for a different block is
skipped without being tallied; otherwise its validator's voting power joins
the tally. `idx` is the slot index of the head pair. -/
def tallyPrecommits (verify : SigVerifier) (chainID : String) (blockID : BlockID)
    (height round : Int) :
    Nat → List (Validator × Option Precommit) → Except VerifyErr Int
  | _, [] => .ok 0
  | idx, (_, none) :: rest =>
    tallyPrecommits verify chainID blockID height round (idx + 1) rest
  | idx, (val, some p) :: rest =>
    if p.data.height ≠ height then .error (.wrongHeight height p.data.height)
    else if p.data.round ≠ round then .error (.wrongRound round p.data.round)
    else if p.data.voteType ≠ .precommit then .error (.notPrecommit idx)
    else if ¬ verify val.pubKey chainID p.data p.signature then
      .error (.invalidSignature p)
    else
      match tallyPrecommits verify chainID blockID height round (idx + 1) rest with
      | .error e => .error e
      | .ok t => .ok (if p.data.blockID = blockID then val.votingPower + t else t)

/-- `VerifyCommit` (src lines 245-291). The per-index validator of
`GetByIndex(idx)` is realized by zipping the member list with the precommit
slots, which agrees with the source once the size check has passed. -/
def ValidatorSet.VerifyCommit (vs : ValidatorSet) (verify : SigVerifier)
    (chainID : String) (blockID : BlockID) (height : Int) (commit : Commit) :
    Except VerifyErr Unit :=
  if vs.Size ≠ commit.precommits.length then
    .error (.wrongSetSize vs.Size commit.precommits.length)
  else if height ≠ commit.height then .error (.wrongHeight height commit.height)
  else
    match tallyPrecommits verify chainID blockID height commit.round 0
        (vs.validators.zip commit.precommits) with
    | .error e => .error e
    | .ok tallied =>
      if goDiv (vs.totalVotingPowerVal * 2) 3 < tallied then .ok ()
      else .error (.insufficientVotingPower tallied (goDiv (vs.totalVotingPowerVal * 2) 3 + 1))

/-!
Pointer-level model. The value-level definitions above are faithful for any
single `ValidatorSet`, but `Copy` (src lines 105-116) copies the member
objects while carrying the `proposer` cache over as a *pointer* into the
original's member objects, which `IncrementAccum` then mutates in place. To
capture that aliasing, the definitions below re-render the same source
functions over an explicit object store: `Store` is the Go heap of
`Validator` objects, a `Nat` object id is a `*Validator`, and in-place field
assignment is `lset` on the store.
-/

/-- The Go heap of validator objects; an object id is a position in it. -/
abbrev Store : Type := List Validator

/-- `ValidatorSet` at pointer level: the member slice holds pointers
(object ids), and so does the proposer cache. -/
structure PValidatorSet where
  validators : List Nat
  proposer : Option Nat
  totalVotingPower : Int
deriving DecidableEq

/-- `genValidatorSet` (src lines 59-69) at pointer level: allocate copies of
the given validators (in address-sorted order) and point at them. -/
def pGenValidatorSet (vals : List Validator) (st : Store) : Store × PValidatorSet :=
  let sorted := (vals.map Validator.Copy).insertionSort valLe
  (st ++ sorted,
   { validators := (List.range sorted.length).map (· + st.length)
     proposer := none
     totalVotingPower := 0 })

/-- `TotalVotingPower` (src lines 145-152) at pointer level — the returned
value. -/
def pTotalVotingPowerVal (st : Store) (ps : PValidatorSet) : Int :=
  if ps.totalVotingPower = 0 then
    (ps.validators.map fun id => ((st.get? id).getD default).votingPower).sum
  else ps.totalVotingPower

/-- Phase 1 of `IncrementAccum` (src lines 84-87) at pointer level: bump each
member object's accum in place. -/
def pPhase1 (times : Int) (ids : List Nat) (st : Store) : Store :=
  ids.foldl
    (fun s id =>
      match s.get? id with
      | none => s
      | some v => lset s id { v with accum := v.accum + v.votingPower * times })
    st

/-- The heap pushes of src lines 84-87 at pointer level: entries carry object
ids, keyed by the post-phase-1 accums. -/
def pBuildHeap (st : Store) : List Nat → List (Nat × Int) → List (Nat × Int)
  | [], h => h
  | id :: ids, h =>
    pBuildHeap st ids (heapPush h id (accumKey ((st.get? id).getD default)))

/-- The decrement loop of `IncrementAccum` (src lines 89-98) at pointer level:
the peeked object's accum is decremented in place in the store. -/
def pIncrementLoop (total : Int) (deTime : Int) :
    Nat → Nat → Store → List (Nat × Int) → Option Nat → Option (Store × Option Nat)
  | 0, _, st, _, prop => some (st, prop)
  | fuel + 1, i, st, heap, prop =>
    match heapPeek heap with
    | none => none
    | some id =>
      match st.get? id with
      | none => none
      | some mostest =>
        pIncrementLoop total deTime fuel (i + 1)
          (lset st id { mostest with accum := mostest.accum - total })
          (heapUpdateTop heap id (mostest.accum - total))
          (if (i : Int) = deTime then some id else prop)

/-- `IncrementAccum` (src lines 81-99) at pointer level: the proposer cache
ends up holding the *pointer* to the selected member object. -/
def pIncrementAccum (times : Int) (st : Store) (ps : PValidatorSet) :
    Option (Store × PValidatorSet) :=
  let st1 := pPhase1 times ps.validators st
  let total := pTotalVotingPowerVal st1 ps
  match pIncrementLoop total (times - 1) times.toNat 0 st1
      (pBuildHeap st1 ps.validators []) none with
  | none => none
  | some (st2, propId) =>
    some (st2,
      { validators := ps.validators
        proposer := match propId with
                    | none => ps.proposer
                    | some id => some id
        totalVotingPower := total })

/-- `Copy` (src lines 105-116) at pointer level: fresh copies of the member
objects are allocated ("NOTE: must copy, since IncrementAccum updates in
place"), but the `proposer` field carries over the original's *pointer*, an
alias into the original's member objects. -/
def pCopy (st : Store) (ps : PValidatorSet) : Store × PValidatorSet :=
  (st ++ ps.validators.map (fun id => ((st.get? id).getD default).Copy),
   { validators := (List.range ps.validators.length).map (· + st.length)
     proposer := ps.proposer
     totalVotingPower := ps.totalVotingPower })

/-- `Proposer` (src lines 154-164) at pointer level: the cached pointer is
dereferenced against the current store and a copy of the object returned. -/
def pProposer (st : Store) (ps : PValidatorSet) : Option Validator :=
  if ps.validators = [] then none
  else
    match ps.proposer with
    | some id => (st.get? id).map Validator.Copy
    | none =>
      ((ps.validators.map fun id => (st.get? id).getD default).foldl
        (fun acc v => some (compareAccum acc v)) none).map Validator.Copy

/-- `NewValidatorSet` (src lines 51-57) at pointer level. -/
def pNewValidatorSet (vals : Option (List Validator)) (st : Store) :
    Option (Store × PValidatorSet) :=
  let g := pGenValidatorSet (vals.getD []) st
  match vals with
  | none => some g
  | some _ => pIncrementAccum 1 g.1 g.2

/-- The structural invariant of spec §3: members strictly sorted by ascending
address (which entails distinct addresses). -/
def ValidatorSet.SortedStrict (vs : ValidatorSet) : Prop := vs.validators.Pairwise valLt

instance (vs : ValidatorSet) : Decidable vs.SortedStrict := by
  unfold ValidatorSet.SortedStrict; infer_instance

/-- Validator A of the spec §8 rotation example: address 0x01, voting power 2. -/
def valA : Validator := ⟨[1], 0, 2, 0⟩

/-- Validator B of the spec §8 rotation example: address 0x02, voting power 1. -/
def valB : Validator := ⟨[2], 0, 1, 0⟩

/-- C4: for members A (power 2) and B (power 1), both with accum 0: the first
single rotation step raises the accums to [2, 1] before charging, selects A as
proposer and charges it to −1 (B keeps 1); the second single step raises the
accums to [1, 2], selects B and charges it to −1 (A keeps 1). -/
theorem rotation_two_validator_pattern :
    (incrementPhase1 1 (genValidatorSet [valA, valB]).validators).map Validator.accum
        = [2, 1] ∧
    (genValidatorSet [valA, valB]).IncrementAccum 1 =
      some { validators := [⟨[1], 0, 2, -1⟩, ⟨[2], 0, 1, 1⟩]
             proposer := some ⟨[1], 0, 2, -1⟩
             totalVotingPower := 3 } ∧
    ({ validators := [⟨[1], 0, 2, -1⟩, ⟨[2], 0, 1, 1⟩]
       proposer := some ⟨[1], 0, 2, -1⟩
       totalVotingPower := 3 } : ValidatorSet).Proposer = some ⟨[1], 0, 2, -1⟩ ∧
    (incrementPhase1 1 [⟨[1], 0, 2, -1⟩, ⟨[2], 0, 1, 1⟩]).map Validator.accum = [1, 2] ∧
    ({ validators := [⟨[1], 0, 2, -1⟩, ⟨[2], 0, 1, 1⟩]
       proposer := some ⟨[1], 0, 2, -1⟩
       totalVotingPower := 3 } : ValidatorSet).IncrementAccum 1 =
      some { validators := [⟨[1], 0, 2, 1⟩, ⟨[2], 0, 1, -1⟩]
             proposer := some ⟨[2], 0, 1, -1⟩
             totalVotingPower := 3 } ∧
    ({ validators := [⟨[1], 0, 2, 1⟩, ⟨[2], 0, 1, -1⟩]
       proposer := some ⟨[2], 0, 1, -1⟩
       totalVotingPower := 3 } : ValidatorSet).Proposer = some ⟨[2], 0, 1, -1⟩ := by
  decide

/-- C9: constructing from a nil validator list skips the initial rotation step
(the result is exactly `genValidatorSet` of nothing: empty member list, empty
proposer cache), and `Proposer` on that empty set returns the defined nil
result instead of faulting. -/
theorem newValidatorSet_nil_skips_rotation :
    NewValidatorSet none = some (genValidatorSet []) ∧
    (genValidatorSet []).validators = [] ∧
    (genValidatorSet []).proposer = none ∧
    (genValidatorSet []).Proposer = none := by
  decide

/-- The tie-break order the spec claims for the queue peek (§4.3: "descending
accum, then ascending address"), stated from the spec's words for comparison
with the source's `accumComparable`: `v` ranks strictly above `w`. -/
def specClaimedPeekOrder (v w : Validator) : Bool :=
  decide (w.accum < v.accum) ||
    (decide (v.accum = w.accum) && decide (bytesCompare v.address w.address = .lt))

/-- C2 counterexample: two validators with equal accum and distinct addresses.
The spec's claimed order ranks the first strictly above the second, but the
key `IncrementAccum` hands the heap (`accumComparable(val.Accum)`) is the
accum alone — both validators get identical keys and `accumComparable.Less`
ranks neither above the other, so no address tie-break exists in the order the
heap consumes. Concretely, the peek after pushing the two equal keys yields
whichever entry was pushed first: the selection is not independent of push
order. -/
theorem accumComparable_no_address_tiebreak :
    accumKey ⟨[1], 0, 1, 5⟩ = accumKey ⟨[2], 0, 1, 5⟩ ∧
    accumCompLess (accumKey ⟨[1], 0, 1, 5⟩) (accumKey ⟨[2], 0, 1, 5⟩) = false ∧
    accumCompLess (accumKey ⟨[2], 0, 1, 5⟩) (accumKey ⟨[1], 0, 1, 5⟩) = false ∧
    specClaimedPeekOrder ⟨[1], 0, 1, 5⟩ ⟨[2], 0, 1, 5⟩ = true ∧
    (⟨[1], 0, 1, 5⟩ : Validator) ≠ ⟨[2], 0, 1, 5⟩ ∧
    heapPeek (heapPush (heapPush [] 0 5) 1 5) = some 0 ∧
    heapPeek (heapPush (heapPush [] 1 5) 0 5) = some 1 := by
  decide

/-- C2 amended: the order the rotation heap uses is descending accum and
nothing else — the pushed key is a function of the accum alone, validators
with distinct accums are ranked by greater accum, and validators with equal
accum receive identical keys, which the heap resolves by its internal
arrangement (the first-pushed of two equal keys stays ahead), not by any
address tie-break. -/
theorem heap_order_is_accum_only :
    (∀ v w : Validator,
      accumCompLess (accumKey v) (accumKey w) = decide (w.accum < v.accum)) ∧
    (∀ v w : Validator, v.accum = w.accum → accumKey v = accumKey w) ∧
    (∀ a b : Nat, ∀ k : Int, heapPeek (heapPush (heapPush [] a k) b k) = some a) := by
  refine ⟨fun v w => rfl, fun v w h => h, fun a b k => ?_⟩
  simp [heapPush, heapSiftUp, heapPeek, heapKeyAt, accumCompLess, lset]

/-- C6 counterexample: deserializing a record list with a duplicated address
keeps both records (sorted adjacently); the resulting set violates the
strictly-sorted-unique invariant — duplicates are neither rejected nor
eliminated. -/
theorem valSetFromJsonBytes_keeps_duplicates :
    ValSetFromJsonBytes (some [⟨[1], 0, 2, 0⟩, ⟨[1], 7, 3, 0⟩]) =
      some { validators := [⟨[1], 0, 2, 0⟩, ⟨[1], 7, 3, 0⟩]
             proposer := none
             totalVotingPower := 0 } ∧
    ¬ (genValidatorSet [⟨[1], 0, 2, 0⟩, ⟨[1], 7, 3, 0⟩]).SortedStrict := by
  constructor
  · decide
  · intro h
    have : valLt ⟨[1], 0, 2, 0⟩ ⟨[1], 7, 3, 0⟩ := by
      have hs : (genValidatorSet [⟨[1], 0, 2, 0⟩, ⟨[1], 7, 3, 0⟩]).validators
          = [⟨[1], 0, 2, 0⟩, ⟨[1], 7, 3, 0⟩] := by decide
      unfold ValidatorSet.SortedStrict at h
      rw [hs] at h
      exact List.rel_of_pairwise_cons h (List.mem_singleton.mpr rfl)
    exact absurd this (by decide)

/-- C6 amended: deserialization re-sorts the stored records by address but
does not validate uniqueness: for every decoded list the resulting member
sequence is a permutation of the input sorted non-strictly by address — every
record, duplicate addresses included, is kept. -/
theorem valSetFromJsonBytes_sorts_keeps_all (l : List Validator) :
    ValSetFromJsonBytes (some l) = some (genValidatorSet l) ∧
    (genValidatorSet l).validators.Pairwise valLe ∧
    (genValidatorSet l).validators.Perm l := by
  refine ⟨rfl, ?_, ?_⟩
  · exact List.sorted_insertionSort valLe _
  · show ((l.map Validator.Copy).insertionSort valLe).Perm l
    rw [map_Copy_eq]
    exact List.perm_insertionSort valLe l

/-- C7: the aliasing run. Build the two-member set (A: power 2, B: power 1),
clone it, then rotate only the original. The clone `c` is never touched, yet
its observable `Proposer()` changes from A with accum −1 to A with accum 1,
because `Copy` carried the proposer cache over as a pointer into the
original's member objects and `IncrementAccum` mutates those in place — in
conflict with the source's own safety note ("All get/set to validators should
copy the value for safety"). The clone's member objects (ids 2 and 3) are
unchanged throughout. -/
theorem copy_proposer_alias_bug :
    pNewValidatorSet (some [valA, valB]) [] =
      some ([⟨[1], 0, 2, -1⟩, ⟨[2], 0, 1, 1⟩],
            { validators := [0, 1], proposer := some 0, totalVotingPower := 3 }) ∧
    pCopy [⟨[1], 0, 2, -1⟩, ⟨[2], 0, 1, 1⟩]
        { validators := [0, 1], proposer := some 0, totalVotingPower := 3 } =
      ([⟨[1], 0, 2, -1⟩, ⟨[2], 0, 1, 1⟩, ⟨[1], 0, 2, -1⟩, ⟨[2], 0, 1, 1⟩],
       { validators := [2, 3], proposer := some 0, totalVotingPower := 3 }) ∧
    pProposer [⟨[1], 0, 2, -1⟩, ⟨[2], 0, 1, 1⟩, ⟨[1], 0, 2, -1⟩, ⟨[2], 0, 1, 1⟩]
        { validators := [2, 3], proposer := some 0, totalVotingPower := 3 } =
      some ⟨[1], 0, 2, -1⟩ ∧
    pIncrementAccum 1 [⟨[1], 0, 2, -1⟩, ⟨[2], 0, 1, 1⟩, ⟨[1], 0, 2, -1⟩, ⟨[2], 0, 1, 1⟩]
        { validators := [0, 1], proposer := some 0, totalVotingPower := 3 } =
      some ([⟨[1], 0, 2, 1⟩, ⟨[2], 0, 1, -1⟩, ⟨[1], 0, 2, -1⟩, ⟨[2], 0, 1, 1⟩],
            { validators := [0, 1], proposer := some 1, totalVotingPower := 3 }) ∧
    pProposer [⟨[1], 0, 2, 1⟩, ⟨[2], 0, 1, -1⟩, ⟨[1], 0, 2, -1⟩, ⟨[2], 0, 1, 1⟩]
        { validators := [2, 3], proposer := some 0, totalVotingPower := 3 } =
      some ⟨[1], 0, 2, 1⟩ ∧
    (some (⟨[1], 0, 2, -1⟩ : Validator) ≠ some (⟨[1], 0, 2, 1⟩ : Validator)) := by
  decide

/-- All checks of src lines 263-277 that a present precommit must pass
(height, round, vote type, signature); an absent slot passes vacuously. -/
def slotChecksPass (verify : SigVerifier) (chainID : String) (height round : Int) :
    Validator × Option Precommit → Prop
  | (_, none) => True
  | (val, some p) =>
      p.data.height = height ∧ p.data.round = round ∧
      p.data.voteType = .precommit ∧ verify val.pubKey chainID p.data p.signature = true

instance (verify : SigVerifier) (chainID : String) (height round : Int) :
    (x : Validator × Option Precommit) →
      Decidable (slotChecksPass verify chainID height round x)
  | (_, none) => .isTrue trivial
  | (val, some p) => by unfold slotChecksPass; infer_instance

/-- The tally the spec describes: the total voting power of present precommits
whose block identifier matches the target. -/
def matchingTally (blockID : BlockID) (l : List (Validator × Option Precommit)) : Int :=
  (l.map fun x =>
    match x with
    | (val, some p) => if p.data.blockID = blockID then val.votingPower else 0
    | (_, none) => 0).sum

theorem tallyPrecommits_append (verify : SigVerifier) (chainID : String)
    (blockID : BlockID) (height round : Int) :
    ∀ (l1 l2 : List (Validator × Option Precommit)) (idx : Nat),
      tallyPrecommits verify chainID blockID height round idx (l1 ++ l2) =
        match tallyPrecommits verify chainID blockID height round idx l1 with
        | .error e => .error e
        | .ok t1 =>
          match tallyPrecommits verify chainID blockID height round (idx + l1.length) l2 with
          | .error e => .error e
          | .ok t2 => .ok (t1 + t2)
  | [], l2, idx => by
    simp only [List.nil_append, tallyPrecommits, List.length_nil, Nat.add_zero]
    cases tallyPrecommits verify chainID blockID height round idx l2 <;> simp
  | (val, none) :: l1, l2, idx => by
    simp only [List.cons_append, tallyPrecommits, List.length_cons, List.append_eq]
    rw [tallyPrecommits_append verify chainID blockID height round l1 l2 (idx + 1)]
    have : idx + 1 + l1.length = idx + (l1.length + 1) := by omega
    rw [this]
  | (val, some p) :: l1, l2, idx => by
    simp only [List.cons_append, tallyPrecommits, List.length_cons, List.append_eq]
    split
    · rfl
    · split
      · rfl
      · split
        · rfl
        · split
          · rfl
          · rw [tallyPrecommits_append verify chainID blockID height round l1 l2 (idx + 1)]
            have : idx + 1 + l1.length = idx + (l1.length + 1) := by omega
            rw [this]
            cases tallyPrecommits verify chainID blockID height round (idx + 1) l1 with
            | error e => rfl
            | ok t1 =>
              cases tallyPrecommits verify chainID blockID height round
                  (idx + (l1.length + 1)) l2 with
              | error e => rfl
              | ok t2 =>
                simp only []
                split <;> simp [Int.add_assoc]

theorem tallyPrecommits_ok_of_checks (verify : SigVerifier) (chainID : String)
    (blockID : BlockID) (height round : Int) :
    ∀ (l : List (Validator × Option Precommit)) (idx : Nat),
      (∀ x ∈ l, slotChecksPass verify chainID height round x) →
      tallyPrecommits verify chainID blockID height round idx l =
        .ok (matchingTally blockID l)
  | [], idx, _ => rfl
  | (val, none) :: l, idx, h => by
    simp only [tallyPrecommits, matchingTally, List.map_cons, List.sum_cons]
    rw [tallyPrecommits_ok_of_checks verify chainID blockID height round l (idx + 1)
      (fun x hx => h x (List.mem_cons_of_mem _ hx))]
    simp [matchingTally]
  | (val, some p) :: l, idx, h => by
    obtain ⟨h1, h2, h3, h4⟩ := h _ (List.mem_cons_self _ _)
    simp only [tallyPrecommits]
    rw [if_neg (by simp [h1]), if_neg (by simp [h2]), if_neg (by simp [h3]),
      if_neg (by simp [h4])]
    rw [tallyPrecommits_ok_of_checks verify chainID blockID height round l (idx + 1)
      (fun x hx => h x (List.mem_cons_of_mem _ hx))]
    simp only [matchingTally, List.map_cons, List.sum_cons]
    split <;> simp [matchingTally]

/-- C1: when no structural or signature failure pre-empts the tally (sizes
match, heights match, and every present precommit passes the height / round /
type / signature checks), `VerifyCommit` succeeds exactly when the tallied
voting power of present precommits matching the target block strictly exceeds
`floor(totalVotingPower * 2 / 3)`, and otherwise fails with the
insufficient-voting-power error reporting that tally and the threshold
`floor(totalVotingPower * 2 / 3) + 1`. -/
theorem verifyCommit_quorum_iff (vs : ValidatorSet) (verify : SigVerifier)
    (chainID : String) (blockID : BlockID) (height : Int) (commit : Commit)
    (hsz : vs.Size = commit.precommits.length)
    (hh : height = commit.height)
    (hchecks : ∀ x ∈ vs.validators.zip commit.precommits,
      slotChecksPass verify chainID height commit.round x) :
    (vs.VerifyCommit verify chainID blockID height commit = .ok () ↔
      goDiv (vs.totalVotingPowerVal * 2) 3 <
        matchingTally blockID (vs.validators.zip commit.precommits)) ∧
    (¬ goDiv (vs.totalVotingPowerVal * 2) 3 <
        matchingTally blockID (vs.validators.zip commit.precommits) →
      vs.VerifyCommit verify chainID blockID height commit =
        .error (.insufficientVotingPower
          (matchingTally blockID (vs.validators.zip commit.precommits))
          (goDiv (vs.totalVotingPowerVal * 2) 3 + 1))) := by
  unfold ValidatorSet.VerifyCommit
  rw [if_neg (by simp [hsz]), if_neg (by simp [hh])]
  rw [tallyPrecommits_ok_of_checks verify chainID blockID height commit.round
    (vs.validators.zip commit.precommits) 0 hchecks]
  by_cases hlt : goDiv (vs.totalVotingPowerVal * 2) 3 <
      matchingTally blockID (vs.validators.zip commit.precommits)
  · simp [hlt]
  · simp [hlt]

/-- Empty chain identifier used by the concrete commit scenarios. -/
def wChain : String := ""

/-- Signature verification that accepts everything (concrete scenarios). -/
def wVerifyTrue : SigVerifier := fun _ _ _ _ => true

/-- Signature verification that rejects everything (concrete scenarios). -/
def wVerifyFalse : SigVerifier := fun _ _ _ _ => false

/-- Target block identifier of the quorum-boundary scenario. -/
def wBID : BlockID := ⟨[9], [9]⟩

/-- A precommit for the target block at height 5, round 1. -/
def wPC : Precommit := ⟨⟨5, 1, .precommit, wBID⟩, []⟩

/-- Four validators of power 1 each (spec §8 quorum boundary). -/
def wQuorumSet : ValidatorSet :=
  ⟨[⟨[1], 0, 1, 0⟩, ⟨[2], 0, 1, 0⟩, ⟨[3], 0, 1, 0⟩, ⟨[4], 0, 1, 0⟩], none, 0⟩

/-- Three of four slots carry matching precommits: tally 3 > floor(8/3) = 2. -/
def wQuorumCommit : Commit := ⟨5, 1, [some wPC, some wPC, some wPC, none]⟩

/-- Two of four slots carry matching precommits: tally 2 is not above 2. -/
def wQuorumCommit2 : Commit := ⟨5, 1, [some wPC, some wPC, none, none]⟩

/-- Witness for `verifyCommit_quorum_iff`: the spec §8 boundary — with four
power-1 validators (total 4, threshold floor(8/3) = 2) three validly signed
matching precommits succeed, two fail with got 2, needed 3. -/
theorem verifyCommit_quorum_iff_witness :
    wQuorumSet.VerifyCommit wVerifyTrue wChain wBID 5 wQuorumCommit = .ok () ∧
    wQuorumSet.VerifyCommit wVerifyTrue wChain wBID 5 wQuorumCommit2 =
      .error (.insufficientVotingPower 2 3) :=
  ⟨(verifyCommit_quorum_iff wQuorumSet wVerifyTrue wChain wBID 5 wQuorumCommit
      (by decide) (by decide) (by decide)).1.mpr (by decide),
   ((verifyCommit_quorum_iff wQuorumSet wVerifyTrue wChain wBID 5 wQuorumCommit2
      (by decide) (by decide) (by decide)).2 (by decide)).trans (by decide)⟩

theorem list_split_at_get {α : Type} :
    ∀ (l : List α) (n : Nat) (x : α), l.get? n = some x →
      l = l.take n ++ x :: l.drop (n + 1)
  | [], _, _, h => by simp at h
  | a :: as, 0, x, h => by
    simp only [List.get?] at h
    simp [Option.some_inj.mp h]
  | a :: as, n + 1, x, h => by
    simp only [List.get?] at h
    have ih := list_split_at_get as n x h
    show a :: as = (a :: as).take (n + 1) ++ x :: (a :: as).drop (n + 2)
    rw [List.take_succ_cons, List.drop_succ_cons, List.cons_append, ← ih]

theorem tally_cons_skip (verify : SigVerifier) (chainID : String) (blockID : BlockID)
    (height round : Int) (val : Validator) (p : Precommit) (idx : Nat)
    (rest : List (Validator × Option Precommit))
    (hph : p.data.height = height) (hpr : p.data.round = round)
    (hpt : p.data.voteType = .precommit)
    (hsig : verify val.pubKey chainID p.data p.signature = true)
    (hbid : p.data.blockID ≠ blockID) :
    tallyPrecommits verify chainID blockID height round idx ((val, some p) :: rest) =
      tallyPrecommits verify chainID blockID height round idx ((val, none) :: rest) := by
  simp only [tallyPrecommits]
  rw [if_neg (by simp [hph]), if_neg (by simp [hpr]), if_neg (by simp [hpt]),
    if_neg (by simp [hsig])]
  cases tallyPrecommits verify chainID blockID height round (idx + 1) rest with
  | error e => rfl
  | ok t => simp [hbid]

theorem tally_cons_badsig (verify : SigVerifier) (chainID : String) (blockID : BlockID)
    (height round : Int) (val : Validator) (p : Precommit) (idx : Nat)
    (rest : List (Validator × Option Precommit))
    (hph : p.data.height = height) (hpr : p.data.round = round)
    (hpt : p.data.voteType = .precommit)
    (hsig : verify val.pubKey chainID p.data p.signature = false) :
    tallyPrecommits verify chainID blockID height round idx ((val, some p) :: rest) =
      .error (.invalidSignature p) := by
  simp only [tallyPrecommits]
  rw [if_neg (by simp [hph]), if_neg (by simp [hpr]), if_neg (by simp [hpt]),
    if_pos (by simp [hsig])]

/-- C3: for the precommit at slot `pre.length` (validator `val`), passing the
height / round / type checks: (a) if its signature verifies but its block
identifier differs from the target, the whole verification behaves exactly as
if the slot were absent — skipped, untallied, no error from it; (b) if its
signature fails to verify — whatever block it names — and the slots before it
pass, the whole call fails with the invalid-signature error. -/
theorem verifyCommit_wrong_block_vs_bad_sig (vs : ValidatorSet) (verify : SigVerifier)
    (chainID : String) (blockID : BlockID) (height : Int) (commit : Commit)
    (pre suf : List (Option Precommit)) (p : Precommit) (val : Validator)
    (hsplit : commit.precommits = pre ++ some p :: suf)
    (hval : vs.validators.get? pre.length = some val)
    (hph : p.data.height = height) (hpr : p.data.round = commit.round)
    (hpt : p.data.voteType = .precommit) :
    (verify val.pubKey chainID p.data p.signature = true → p.data.blockID ≠ blockID →
      vs.VerifyCommit verify chainID blockID height commit =
        vs.VerifyCommit verify chainID blockID height
          { commit with precommits := pre ++ none :: suf }) ∧
    (verify val.pubKey chainID p.data p.signature = false →
      vs.Size = commit.precommits.length → height = commit.height →
      ∀ t0, tallyPrecommits verify chainID blockID height commit.round 0
          ((vs.validators.take pre.length).zip pre) = .ok t0 →
      vs.VerifyCommit verify chainID blockID height commit =
        .error (.invalidSignature p)) := by
  have hn : pre.length < vs.validators.length := by
    by_contra hcon
    rw [List.get?_eq_none.mpr (by omega)] at hval
    exact Option.noConfusion hval
  have hsplitv := list_split_at_get vs.validators pre.length val hval
  have htl : (vs.validators.take pre.length).length = pre.length := by
    simp only [List.length_take]
    omega
  have hzip1 : vs.validators.zip (pre ++ some p :: suf) =
      (vs.validators.take pre.length).zip pre ++
        (val, some p) :: (vs.validators.drop (pre.length + 1)).zip suf := by
    conv_lhs => rw [hsplitv]
    rw [List.zip_append htl]
    rfl
  have hzip2 : vs.validators.zip (pre ++ none :: suf) =
      (vs.validators.take pre.length).zip pre ++
        (val, none) :: (vs.validators.drop (pre.length + 1)).zip suf := by
    conv_lhs => rw [hsplitv]
    rw [List.zip_append htl]
    rfl
  constructor
  · intro hsig hbid
    have htally : tallyPrecommits verify chainID blockID height commit.round 0
        (vs.validators.zip (pre ++ some p :: suf)) =
      tallyPrecommits verify chainID blockID height commit.round 0
        (vs.validators.zip (pre ++ none :: suf)) := by
      rw [hzip1, hzip2, tallyPrecommits_append, tallyPrecommits_append]
      cases tallyPrecommits verify chainID blockID height commit.round 0
          ((vs.validators.take pre.length).zip pre) with
      | error e => rfl
      | ok t1 =>
        rw [tally_cons_skip verify chainID blockID height commit.round val p _ _
          hph hpr hpt hsig hbid]
    unfold ValidatorSet.VerifyCommit
    simp only [hsplit, List.length_append, List.length_cons]
    rw [htally]
  · intro hsig hsz hh t0 hpre
    unfold ValidatorSet.VerifyCommit
    rw [if_neg (by simp [hsz]), if_neg (by simp [hh]), hsplit, hzip1,
      tallyPrecommits_append, hpre,
      tally_cons_badsig verify chainID blockID height commit.round val p _ _
        hph hpr hpt hsig]

/-- Target block of the wrong-block/bad-signature scenario. -/
def wBID2 : BlockID := ⟨[8], []⟩

/-- A precommit naming a different block than the target, height 7, round 0. -/
def wPCother : Precommit := ⟨⟨7, 0, .precommit, ⟨[9], []⟩⟩, []⟩

/-- Two validators of power 1 (wrong-block/bad-signature scenario). -/
def wC3Set : ValidatorSet := ⟨[⟨[1], 0, 1, 0⟩, ⟨[2], 0, 1, 0⟩], none, 0⟩

/-- Slot 0 votes for the other block; slot 1 is absent. -/
def wC3Commit : Commit := ⟨7, 0, [some wPCother, none]⟩

/-- Witness for `verifyCommit_wrong_block_vs_bad_sig`: with an
accept-everything verifier the wrong-block precommit is equivalent to an
absent slot; with a reject-everything verifier the same commit fails with the
invalid-signature error. -/
theorem verifyCommit_wrong_block_vs_bad_sig_witness :
    (wC3Set.VerifyCommit wVerifyTrue wChain wBID2 7 wC3Commit =
      wC3Set.VerifyCommit wVerifyTrue wChain wBID2 7
        { wC3Commit with precommits := [] ++ none :: [none] }) ∧
    wC3Set.VerifyCommit wVerifyFalse wChain wBID2 7 wC3Commit =
      .error (.invalidSignature wPCother) :=
  ⟨(verifyCommit_wrong_block_vs_bad_sig wC3Set wVerifyTrue wChain wBID2 7 wC3Commit
      [] [none] wPCother ⟨[1], 0, 1, 0⟩ (by decide) (by decide) (by decide) (by decide)
      (by decide)).1 (by decide) (by decide),
   (verifyCommit_wrong_block_vs_bad_sig wC3Set wVerifyFalse wChain wBID2 7 wC3Commit
      [] [none] wPCother ⟨[1], 0, 1, 0⟩ (by decide) (by decide) (by decide) (by decide)
      (by decide)).2 (by decide) (by decide) (by decide) 0 (by decide)⟩

theorem pairwise_valLt_iff (l : List Validator) :
    l.Pairwise valLt ↔
      ∀ k1 k2 x y, l.get? k1 = some x → l.get? k2 = some y → k1 < k2 → valLt x y := by
  rw [List.pairwise_iff_get]
  constructor
  · intro h k1 k2 x y hx hy hlt
    obtain ⟨h1, hx1⟩ := List.get?_eq_some.mp hx
    obtain ⟨h2, hy1⟩ := List.get?_eq_some.mp hy
    rw [← hx1, ← hy1]
    exact h ⟨k1, h1⟩ ⟨k2, h2⟩ hlt
  · intro h i j hij
    exact h i j _ _ (List.get?_eq_get i.isLt) (List.get?_eq_get j.isLt) hij

theorem sorted_addrLe_of_le {l : List Validator} (hs : l.Pairwise valLt) :
    ∀ k1 k2, k1 ≤ k2 → k2 < l.length →
      addrLe ((l.get? k1).getD default).address ((l.get? k2).getD default).address := by
  intro k1 k2 hle hlt
  rcases Nat.eq_or_lt_of_le hle with rfl | hlt2
  · exact (addrLe_iff _ _).mpr (Or.inl rfl)
  · have h1 : k1 < l.length := by omega
    have hvl := (pairwise_valLt_iff l).mp hs k1 k2 _ _ (List.get?_eq_get h1)
      (List.get?_eq_get hlt) hlt2
    rw [List.get?_eq_get h1, List.get?_eq_get hlt]
    simp only [Option.getD_some]
    exact (addrLe_iff _ _).mpr (Or.inr hvl)

theorem sortSearchGo_spec (f : Nat → Bool) :
    ∀ (fuel i j : Nat), j - i ≤ fuel → i ≤ j →
      (∀ a b, i ≤ a → a ≤ b → b < j → f a = true → f b = true) →
      i ≤ sortSearchGo fuel f i j ∧ sortSearchGo fuel f i j ≤ j ∧
      (∀ k, i ≤ k → k < sortSearchGo fuel f i j → f k = false) ∧
      (sortSearchGo fuel f i j < j → f (sortSearchGo fuel f i j) = true)
  | 0, i, j, hf, hij, _ => by
    have hij2 : i = j := by omega
    subst hij2
    simp only [sortSearchGo]
    exact ⟨Nat.le_refl i, Nat.le_refl i, fun k h1 h2 => absurd h2 (by omega),
      fun h => absurd h (by omega)⟩
  | fuel + 1, i, j, hf, hij, hmono => by
    by_cases hij2 : i < j
    · simp only [sortSearchGo, if_pos hij2]
      by_cases hm : f (i + (j - i) / 2) = true
      · rw [if_pos hm]
        obtain ⟨h1, h2, h3, h4⟩ := sortSearchGo_spec f fuel i (i + (j - i) / 2)
          (by omega) (by omega)
          (fun a b ha hab hb hfa => hmono a b ha hab (by omega) hfa)
        refine ⟨h1, by omega, h3, ?_⟩
        intro hlt
        rcases Nat.lt_or_ge (sortSearchGo fuel f i (i + (j - i) / 2))
            (i + (j - i) / 2) with hc | hc
        · exact h4 hc
        · have heq : sortSearchGo fuel f i (i + (j - i) / 2) = i + (j - i) / 2 := by
            omega
          rw [heq]
          exact hm
      · rw [if_neg hm]
        obtain ⟨h1, h2, h3, h4⟩ := sortSearchGo_spec f fuel (i + (j - i) / 2 + 1) j
          (by omega) (by omega)
          (fun a b ha hab hb hfa => hmono a b (by omega) hab hb hfa)
        refine ⟨by omega, h2, ?_, h4⟩
        intro k hk1 hk2
        rcases Nat.lt_or_ge k (i + (j - i) / 2 + 1) with hc | hc
        · cases hfk : f k with
          | false => rfl
          | true =>
            exact absurd (hmono k (i + (j - i) / 2) hk1 (by omega) (by omega) hfk) hm
        · exact h3 k hc hk2
    · simp only [sortSearchGo, if_neg hij2]
      exact ⟨Nat.le_refl i, hij, fun k h1 h2 => absurd h2 (by omega),
        fun h => absurd h (by omega)⟩

theorem searchIdx_spec (vs : ValidatorSet) (a : List Nat)
    (hs : vs.validators.Pairwise valLt) :
    vs.searchIdx a ≤ vs.validators.length ∧
    (∀ k, k < vs.searchIdx a →
      bytesCompare ((vs.validators.get? k).getD default).address a = .lt) ∧
    (vs.searchIdx a < vs.validators.length →
      addrLe a ((vs.validators.get? (vs.searchIdx a)).getD default).address) := by
  have hmono : ∀ a1 b, a1 ≤ b → b < vs.validators.length →
      searchPred vs.validators a a1 = true → searchPred vs.validators a b = true := by
    intro a1 b hab hb hp
    unfold searchPred at hp ⊢
    rw [decide_eq_true_eq] at hp ⊢
    exact addrLe_trans hp (sorted_addrLe_of_le hs a1 b hab hb)
  obtain ⟨h1, h2, h3, h4⟩ := sortSearchGo_spec (searchPred vs.validators a)
    vs.validators.length 0 vs.validators.length (by omega) (by omega)
    (fun a1 b _ hab hb => hmono a1 b hab hb)
  refine ⟨h2, ?_, ?_⟩
  · intro k hk
    have hfk := h3 k (by omega) hk
    unfold searchPred at hfk
    rw [decide_eq_false_iff_not, not_not] at hfk
    have hsw := bytesCompare_swap a (((vs.validators.get? k).getD default).address)
    rw [hfk] at hsw
    exact hsw.symm
  · intro hlt
    have hfr := h4 hlt
    unfold searchPred at hfr
    rw [decide_eq_true_eq] at hfr
    exact hfr

theorem get?_insert_split {α : Type} (l : List α) (idx : Nat) (v : α)
    (hidx : idx ≤ l.length) (k : Nat) :
    (l.take idx ++ v :: l.drop idx).get? k =
      if k < idx then l.get? k else if k = idx then some v else l.get? (k - 1) := by
  have hlen : (l.take idx).length = idx := by
    simp only [List.length_take]
    omega
  by_cases h1 : k < idx
  · rw [List.get?_append (by omega), List.get?_take h1, if_pos h1]
  · rw [List.get?_append_right (by omega), hlen]
    by_cases h2 : k = idx
    · subst h2
      simp [Nat.sub_self, h1]
    · cases hki : (k - idx) with
      | zero => omega
      | succ m =>
        simp only [List.get?, List.get?_drop]
        rw [if_neg h1, if_neg h2]
        have hm : idx + m = k - 1 := by omega
        rw [hm]

theorem get?_remove_split {α : Type} (l : List α) (idx k : Nat)
    (hidx : idx < l.length) :
    (l.take idx ++ l.drop (idx + 1)).get? k =
      if k < idx then l.get? k else l.get? (k + 1) := by
  have hlen : (l.take idx).length = idx := by
    simp only [List.length_take]
    omega
  by_cases h1 : k < idx
  · rw [List.get?_append (by omega), List.get?_take h1, if_pos h1]
  · rw [List.get?_append_right (by omega), hlen, List.get?_drop, if_neg h1]
    have hm : idx + 1 + (k - idx) = k + 1 := by omega
    rw [hm]

theorem addrLt_of_lt_of_le {a b c : List Nat} (h1 : addrLt a b) (h2 : addrLe b c) :
    addrLt a c := by
  rcases (addrLe_iff b c).mp h2 with rfl | h2
  · exact h1
  · exact addrLt_trans h1 h2

theorem addr_ne_of_valLt {a b : Validator} (h : valLt a b) : a.address ≠ b.address := by
  intro heq
  unfold valLt addrLt at h
  rw [heq, bytesCompare_self] at h
  exact Ordering.noConfusion h

theorem sortSearchGo_bounds (f : Nat → Bool) :
    ∀ (fuel i j : Nat), i ≤ j →
      i ≤ sortSearchGo fuel f i j ∧ sortSearchGo fuel f i j ≤ j
  | 0, i, j, hij => by
    simp only [sortSearchGo]
    exact ⟨Nat.le_refl i, hij⟩
  | fuel + 1, i, j, hij => by
    simp only [sortSearchGo]
    split
    · split
      · obtain ⟨h1, h2⟩ := sortSearchGo_bounds f fuel i (i + (j - i) / 2) (by omega)
        omega
      · obtain ⟨h1, h2⟩ := sortSearchGo_bounds f fuel (i + (j - i) / 2 + 1) j (by omega)
        omega
    · exact ⟨Nat.le_refl i, hij⟩

theorem searchIdx_le (vs : ValidatorSet) (a : List Nat) :
    vs.searchIdx a ≤ vs.validators.length :=
  (sortSearchGo_bounds _ _ 0 _ (by omega)).2

theorem Add_preserves_sorted (vs : ValidatorSet) (val : Validator)
    (hs : vs.SortedStrict) : (vs.Add val).2.SortedStrict := by
  unfold ValidatorSet.SortedStrict at hs
  obtain ⟨hA, hB, hC⟩ := searchIdx_spec vs val.address hs
  unfold ValidatorSet.SortedStrict
  simp only [ValidatorSet.Add, Validator.Copy_eq]
  split_ifs with h1 h2
  · rw [pairwise_valLt_iff]
    intro k1 k2 x y hx hy hlt
    have hk2len : k2 < vs.validators.length + 1 := by
      have := (List.get?_eq_some.mp hy).1
      simpa using this
    by_cases hk2 : k2 < vs.validators.length
    · have hk1 : k1 < vs.validators.length := by omega
      rw [List.get?_append hk1] at hx
      rw [List.get?_append hk2] at hy
      exact (pairwise_valLt_iff _).mp hs k1 k2 x y hx hy hlt
    · have hk2e : k2 = vs.validators.length := by omega
      subst hk2e
      rw [List.get?_append_right (by omega)] at hy
      rw [Nat.sub_self] at hy
      simp only [List.get?, Option.some_inj] at hy
      have hk1 : k1 < vs.validators.length := by omega
      rw [List.get?_append hk1] at hx
      have hBk := hB k1 (by omega)
      rw [hx] at hBk
      simp only [Option.getD_some] at hBk
      rw [← hy]
      exact hBk
  · exact hs
  · have hidx : vs.searchIdx val.address < vs.validators.length :=
      Nat.lt_of_le_of_ne hA h1
    have hlt2 : addrLt val.address
        ((vs.validators.get? (vs.searchIdx val.address)).getD default).address := by
      rcases (addrLe_iff _ _).mp (hC hidx) with heq | hl
      · exact absurd (bytesCompare_eq_iff.mpr heq.symm) h2
      · exact hl
    rw [pairwise_valLt_iff]
    intro k1 k2 x y hx hy hlt
    rw [get?_insert_split _ _ _ (Nat.le_of_lt hidx)] at hx hy
    by_cases hk1a : k1 < vs.searchIdx val.address
    · rw [if_pos hk1a] at hx
      by_cases hk2a : k2 < vs.searchIdx val.address
      · rw [if_pos hk2a] at hy
        exact (pairwise_valLt_iff _).mp hs k1 k2 x y hx hy hlt
      · by_cases hk2b : k2 = vs.searchIdx val.address
        · rw [if_neg hk2a, if_pos hk2b] at hy
          have hBk := hB k1 hk1a
          rw [hx] at hBk
          simp only [Option.getD_some] at hBk
          rw [← Option.some_inj.mp hy]
          exact hBk
        · rw [if_neg hk2a, if_neg hk2b] at hy
          exact (pairwise_valLt_iff _).mp hs k1 (k2 - 1) x y hx hy (by omega)
    · by_cases hk1b : k1 = vs.searchIdx val.address
      · rw [if_neg hk1a, if_pos hk1b] at hx
        have hk2a : ¬ k2 < vs.searchIdx val.address := by omega
        have hk2b : k2 ≠ vs.searchIdx val.address := by omega
        rw [if_neg hk2a, if_neg hk2b] at hy
        have hk2len : k2 - 1 < vs.validators.length := (List.get?_eq_some.mp hy).1
        have hle := sorted_addrLe_of_le hs (vs.searchIdx val.address) (k2 - 1)
          (by omega) hk2len
        rw [hy] at hle
        simp only [Option.getD_some] at hle
        rw [← Option.some_inj.mp hx]
        exact addrLt_of_lt_of_le hlt2 hle
      · rw [if_neg hk1a, if_neg hk1b] at hx
        have hk2a : ¬ k2 < vs.searchIdx val.address := by omega
        have hk2b : k2 ≠ vs.searchIdx val.address := by omega
        rw [if_neg hk2a, if_neg hk2b] at hy
        exact (pairwise_valLt_iff _).mp hs (k1 - 1) (k2 - 1) x y hx hy (by omega)

theorem GetByAddress_found (vs : ValidatorSet) (a : List Nat) (idx : Nat) (w : Validator)
    (h : vs.GetByAddress a = (idx, some w)) :
    idx = vs.searchIdx a ∧
    ((vs.validators.get? idx).getD default).address = a ∧
    idx < vs.validators.length := by
  unfold ValidatorSet.GetByAddress at h
  split_ifs at h with hcond
  · obtain ⟨hne, heq⟩ := hcond
    have hfst : vs.searchIdx a = idx := by
      have := congrArg Prod.fst h
      simpa using this
    subst hfst
    exact ⟨rfl, bytesCompare_eq_iff.mp heq,
      Nat.lt_of_le_of_ne (searchIdx_le vs a) hne⟩
  · simp at h

theorem Update_preserves_sorted (vs : ValidatorSet) (val : Validator)
    (hs : vs.SortedStrict) : (vs.Update val).2.SortedStrict := by
  unfold ValidatorSet.SortedStrict at hs
  unfold ValidatorSet.SortedStrict ValidatorSet.Update
  cases hga : vs.GetByAddress val.address with
  | mk index found =>
    cases found with
    | none => exact hs
    | some w =>
      simp only [Validator.Copy_eq]
      obtain ⟨hidx, haddr, hlen⟩ := GetByAddress_found vs val.address index w hga
      rw [pairwise_valLt_iff]
      intro k1 k2 x y hx hy hlt
      have hxa : ∃ x0, vs.validators.get? k1 = some x0 ∧ x.address = x0.address := by
        by_cases hk : k1 = index
        · subst hk
          rw [get?_lset_self _ _ _ (by omega)] at hx
          refine ⟨(vs.validators.get? k1).getD default, ?_, ?_⟩
          · rw [List.get?_eq_get (by omega)]
            simp
          · rw [haddr, ← Option.some_inj.mp hx]
        · rw [get?_lset_ne _ _ _ _ hk] at hx
          exact ⟨x, hx, rfl⟩
      have hya : ∃ y0, vs.validators.get? k2 = some y0 ∧ y.address = y0.address := by
        by_cases hk : k2 = index
        · subst hk
          rw [get?_lset_self _ _ _ (by omega)] at hy
          refine ⟨(vs.validators.get? k2).getD default, ?_, ?_⟩
          · rw [List.get?_eq_get (by omega)]
            simp
          · rw [haddr, ← Option.some_inj.mp hy]
        · rw [get?_lset_ne _ _ _ _ hk] at hy
          exact ⟨y, hy, rfl⟩
      obtain ⟨x0, hx0, hxeq⟩ := hxa
      obtain ⟨y0, hy0, hyeq⟩ := hya
      have := (pairwise_valLt_iff _).mp hs k1 k2 x0 y0 hx0 hy0 hlt
      unfold valLt
      rw [hxeq, hyeq]
      exact this

theorem Remove_preserves_sorted (vs : ValidatorSet) (a : List Nat)
    (hs : vs.SortedStrict) : (vs.Remove a).2.2.SortedStrict := by
  unfold ValidatorSet.SortedStrict at hs
  unfold ValidatorSet.SortedStrict
  simp only [ValidatorSet.Remove]
  split_ifs with h1
  · exact hs
  · push_neg at h1
    have hidx : vs.searchIdx a < vs.validators.length :=
      Nat.lt_of_le_of_ne (searchIdx_le vs a) h1.1
    rw [pairwise_valLt_iff]
    intro k1 k2 x y hx hy hlt
    rw [get?_remove_split _ _ _ hidx] at hx hy
    by_cases hk1 : k1 < vs.searchIdx a <;> by_cases hk2 : k2 < vs.searchIdx a
    · rw [if_pos hk1] at hx
      rw [if_pos hk2] at hy
      exact (pairwise_valLt_iff _).mp hs k1 k2 x y hx hy hlt
    · rw [if_pos hk1] at hx
      rw [if_neg hk2] at hy
      exact (pairwise_valLt_iff _).mp hs k1 (k2 + 1) x y hx hy (by omega)
    · omega
    · rw [if_neg hk1] at hx
      rw [if_neg hk2] at hy
      exact (pairwise_valLt_iff _).mp hs (k1 + 1) (k2 + 1) x y hx hy (by omega)

/-- A mutation call on the Registry: `Add`, `Update` or `Remove`. -/
inductive RegistryOp where
  | add (val : Validator)
  | update (val : Validator)
  | remove (address : List Nat)

/-- Apply one mutation call, keeping the resulting set. -/
def applyOp (vs : ValidatorSet) : RegistryOp → ValidatorSet
  | .add val => (vs.Add val).2
  | .update val => (vs.Update val).2
  | .remove a => (vs.Remove a).2.2

/-- C5: starting from any strictly address-sorted set, every sequence of
`Add` / `Update` / `Remove` calls leaves the member sequence strictly sorted
by ascending address with no duplicate addresses — and since the sequence of
calls is arbitrary, the invariant holds after every intermediate call as
well. -/
theorem registry_ops_preserve_sorted (ops : List RegistryOp) (vs : ValidatorSet)
    (hs : vs.SortedStrict) :
    (ops.foldl applyOp vs).SortedStrict ∧
    ((ops.foldl applyOp vs).validators.map Validator.address).Nodup := by
  have main : ∀ (ops : List RegistryOp) (vs : ValidatorSet), vs.SortedStrict →
      (ops.foldl applyOp vs).SortedStrict := by
    intro ops
    induction ops with
    | nil => exact fun vs h => h
    | cons op rest ih =>
      intro vs h
      simp only [List.foldl_cons]
      apply ih
      cases op with
      | add val => exact Add_preserves_sorted vs val h
      | update val => exact Update_preserves_sorted vs val h
      | remove a => exact Remove_preserves_sorted vs a h
  refine ⟨main ops vs hs, ?_⟩
  have hsorted := main ops vs hs
  unfold ValidatorSet.SortedStrict at hsorted
  exact List.Pairwise.map Validator.address (fun a b hab => addr_ne_of_valLt hab) hsorted

/-- Initial strictly sorted two-member set for the mutation scenario. -/
def wC5Start : ValidatorSet := ⟨[⟨[1], 0, 1, 0⟩, ⟨[3], 0, 2, 0⟩], none, 0⟩

/-- A mutation sequence exercising insert in the middle, duplicate add,
update, remove, and remove of an absent address. -/
def wC5Ops : List RegistryOp :=
  [.add ⟨[2], 0, 5, 0⟩, .add ⟨[2], 0, 9, 0⟩, .update ⟨[3], 1, 7, 0⟩,
   .remove [1], .remove [9], .add ⟨[0], 0, 4, 0⟩]

/-- Witness for `registry_ops_preserve_sorted` on a concrete run. -/
theorem registry_ops_preserve_sorted_witness :
    wC5Start.SortedStrict ∧
    (wC5Ops.foldl applyOp wC5Start).SortedStrict ∧
    ((wC5Ops.foldl applyOp wC5Start).validators.map Validator.address).Nodup :=
  ⟨by decide,
   (registry_ops_preserve_sorted wC5Ops wC5Start (by decide)).1,
   (registry_ops_preserve_sorted wC5Ops wC5Start (by decide)).2⟩

/-- C8: round-trip. Serializing any set holding the structural invariant
(strictly sorted members; total-power cache either unset or accurate) and
deserializing the result reproduces the member list exactly, hence an
identical `hash()` for every choice of the external leaf hash and Merkle
combiner, and an identical `totalVotingPower()`. -/
theorem roundtrip_hash_power (vs : ValidatorSet)
    (hs : vs.SortedStrict)
    (hcache : vs.totalVotingPower = 0 ∨
      vs.totalVotingPower = (vs.validators.map Validator.votingPower).sum) :
    ValSetFromJsonBytes (some vs.JSONBytes) = some (genValidatorSet vs.validators) ∧
    (genValidatorSet vs.validators).validators = vs.validators ∧
    (∀ leaf root, (genValidatorSet vs.validators).Hash leaf root = vs.Hash leaf root) ∧
    (genValidatorSet vs.validators).totalVotingPowerVal = vs.totalVotingPowerVal := by
  unfold ValidatorSet.SortedStrict at hs
  have hsortedLe : vs.validators.Pairwise valLe :=
    hs.imp fun h => (addrLe_iff _ _).mpr (Or.inr h)
  have hval : (genValidatorSet vs.validators).validators = vs.validators := by
    show (vs.validators.map Validator.Copy).insertionSort valLe = vs.validators
    rw [map_Copy_eq]
    exact List.Sorted.insertionSort_eq hsortedLe
  refine ⟨rfl, hval, ?_, ?_⟩
  · intro leaf root
    unfold ValidatorSet.Hash
    rw [hval]
  · unfold ValidatorSet.totalVotingPowerVal
    rw [hval]
    show (if (0 : Int) = 0 then (vs.validators.map Validator.votingPower).sum
        else (0 : Int)) = _
    rw [if_pos rfl]
    rcases hcache with h0 | hsum
    · rw [if_pos h0]
    · by_cases hz : vs.totalVotingPower = 0
      · rw [if_pos hz]
      · rw [if_neg hz, hsum]

/-- Leaf hash used by the concrete round-trip scenario. -/
def wLeaf (v : Validator) : List Nat := v.address

/-- Merkle combiner used by the concrete round-trip scenario. -/
def wRoot (ls : List (List Nat)) : List Nat := ls.join

/-- The set after one rotation: nonzero accums, accurate cached total. -/
def wC8Set : ValidatorSet :=
  ⟨[⟨[1], 0, 2, -1⟩, ⟨[2], 0, 1, 1⟩], some ⟨[1], 0, 2, -1⟩, 3⟩

/-- Witness for `roundtrip_hash_power` on a concrete invariant-holding set. -/
theorem roundtrip_hash_power_witness :
    wC8Set.SortedStrict ∧
    ValSetFromJsonBytes (some wC8Set.JSONBytes) =
      some (genValidatorSet wC8Set.validators) ∧
    (genValidatorSet wC8Set.validators).Hash wLeaf wRoot = wC8Set.Hash wLeaf wRoot ∧
    (genValidatorSet wC8Set.validators).totalVotingPowerVal =
      wC8Set.totalVotingPowerVal :=
  ⟨by decide,
   (roundtrip_hash_power wC8Set (by decide) (by decide)).1,
   (roundtrip_hash_power wC8Set (by decide) (by decide)).2.2.1 wLeaf wRoot,
   (roundtrip_hash_power wC8Set (by decide) (by decide)).2.2.2⟩

/-- Forget the accum field, for frame comparisons: two validator lists agree
under `map eraseAccum` exactly when they agree positionally on address,
public key and voting power. -/
def eraseAccum (v : Validator) : Validator :=
  { address := v.address, pubKey := v.pubKey, votingPower := v.votingPower, accum := 0 }

theorem map_eraseAccum_phase1 (times : Int) (l : List Validator) :
    (incrementPhase1 times l).map eraseAccum = l.map eraseAccum := by
  unfold incrementPhase1
  rw [List.map_map]
  rfl

theorem map_votingPower_phase1 (times : Int) (l : List Validator) :
    (incrementPhase1 times l).map Validator.votingPower = l.map Validator.votingPower := by
  unfold incrementPhase1
  rw [List.map_map]
  rfl

theorem length_buildHeap :
    ∀ (vals : List Validator) (i : Nat) (h : List (Nat × Int)),
      (buildHeap vals i h).length = h.length + vals.length
  | [], _, h => by simp [buildHeap]
  | v :: vs, i, h => by
    simp only [buildHeap, List.length_cons]
    rw [length_buildHeap vs (i + 1) _, length_heapPush]
    omega

theorem forall_buildHeap {P : Nat × Int → Prop} :
    ∀ (vals : List Validator) (i : Nat) (h : List (Nat × Int)),
      (∀ x ∈ h, P x) → (∀ j k, i ≤ j → j < i + vals.length → P (j, k)) →
      ∀ x ∈ buildHeap vals i h, P x
  | [], _, _, hh, _ => hh
  | v :: vs, i, h, hh, hr => by
    simp only [buildHeap]
    refine forall_buildHeap vs (i + 1) _ ?_ ?_
    · exact forall_heapPush h i (accumKey v) hh
        (hr i (accumKey v) (Nat.le_refl i) (by simp))
    · intro j k h1 h2
      exact hr j k (by omega) (by simp only [List.length_cons]; omega)


theorem incrementLoop_frame (total deTime : Int) :
    ∀ (fuel i : Nat) (vals : List Validator) (heap : List (Nat × Int))
      (prop : Option Nat),
      heap ≠ [] → (∀ x ∈ heap, x.1 < vals.length) →
      ∃ vals2 prop2 heap2,
        incrementLoop total deTime fuel i vals heap prop =
          some (vals2, prop2, heap2) ∧
        vals2.map eraseAccum = vals.map eraseAccum
  | 0, i, vals, heap, prop, _, _ => ⟨vals, prop, heap, rfl, rfl⟩
  | fuel + 1, i, vals, heap, prop, hne, hbound => by
    obtain ⟨idx, hpeek⟩ := heapPeek_isSome_of_ne_nil hne
    obtain ⟨k, hmem⟩ := heapPeek_mem hpeek
    have hidx : idx < vals.length := hbound (idx, k) hmem
    obtain ⟨mostest, hget⟩ : ∃ m, vals.get? idx = some m :=
      ⟨_, List.get?_eq_get hidx⟩
    have hne2 : heapUpdateTop heap idx (mostest.accum - total) ≠ [] := by
      intro hnil
      have hlen := length_heapUpdateTop heap idx (mostest.accum - total)
      rw [hnil] at hlen
      cases heap with
      | nil => exact hne rfl
      | cons a l => exact absurd hlen.symm (by simp)
    have hbound2 : ∀ x ∈ heapUpdateTop heap idx (mostest.accum - total),
        x.1 < (lset vals idx { mostest with accum := mostest.accum - total }).length := by
      rw [length_lset]
      exact forall_heapUpdateTop heap idx _ hbound hidx
    obtain ⟨vals2, prop2, heap2, heq, hmap⟩ := incrementLoop_frame total deTime fuel
      (i + 1) (lset vals idx { mostest with accum := mostest.accum - total })
      (heapUpdateTop heap idx (mostest.accum - total))
      (if (i : Int) = deTime then some idx else prop) hne2 hbound2
    refine ⟨vals2, prop2, heap2, ?_, ?_⟩
    · simp only [incrementLoop, hpeek, hget]
      exact heq
    · rw [hmap, map_lset]
      have hg : (vals.map eraseAccum).get? idx = some (eraseAccum mostest) := by
        rw [List.get?_map, hget]
        rfl
      rw [show eraseAccum { mostest with accum := mostest.accum - total } =
        eraseAccum mostest from rfl]
      exact lset_of_get? _ _ _ hg

theorem map_of_map_eraseAccum {β : Type} (f : Validator → β)
    (hf : ∀ v, f (eraseAccum v) = f v) {l1 l2 : List Validator}
    (h : l1.map eraseAccum = l2.map eraseAccum) : l1.map f = l2.map f := by
  have hc := congrArg (List.map f) h
  rw [List.map_map, List.map_map] at hc
  have he : f ∘ eraseAccum = f := funext hf
  rwa [he] at hc

theorem totalVotingPowerVal_eq (l : List Validator) (p : Option Validator) (c : Int) :
    ValidatorSet.totalVotingPowerVal ⟨l, p, c⟩ =
      if c = 0 then (l.map Validator.votingPower).sum else c := rfl

/-- C10: for every non-empty set and every `times ≥ 1`, `IncrementAccum`
completes and changes only the accum fields and the two caches it is
specified to touch: the member sequence keeps its length and, position by
position, its addresses, public keys and voting powers (hence membership and
the address-sorted order are unchanged), and the observable
`totalVotingPower()` value is unchanged. -/
theorem incrementAccum_frame (vs : ValidatorSet) (times : Int)
    (hne : vs.validators ≠ []) (_ht : 1 ≤ times) :
    (vs.IncrementAccum times).isSome ∧
    ∀ vs2, vs.IncrementAccum times = some vs2 →
      vs2.validators.map eraseAccum = vs.validators.map eraseAccum ∧
      vs2.validators.length = vs.validators.length ∧
      vs2.validators.map Validator.address = vs.validators.map Validator.address ∧
      vs2.validators.map Validator.pubKey = vs.validators.map Validator.pubKey ∧
      vs2.validators.map Validator.votingPower =
        vs.validators.map Validator.votingPower ∧
      vs2.totalVotingPowerVal = vs.totalVotingPowerVal := by
  have hne1 : incrementPhase1 times vs.validators ≠ [] := by
    cases hv : vs.validators with
    | nil => exact absurd hv hne
    | cons a l => simp [incrementPhase1, hv]
  have hheapnil : buildHeap (incrementPhase1 times vs.validators) 0 [] ≠ [] := by
    intro h
    have hlen := length_buildHeap (incrementPhase1 times vs.validators) 0 []
    rw [h] at hlen
    simp only [List.length_nil, Nat.zero_add] at hlen
    exact hne1 (List.length_eq_zero.mp hlen.symm)
  have hheapbound : ∀ x ∈ buildHeap (incrementPhase1 times vs.validators) 0 [],
      x.1 < (incrementPhase1 times vs.validators).length := by
    refine forall_buildHeap _ 0 [] (by simp) ?_
    intro j k h1 h2
    simpa using h2
  obtain ⟨vals2, prop2, heap2, hloop, hmap⟩ := incrementLoop_frame
    (ValidatorSet.totalVotingPowerVal
      { vs with validators := incrementPhase1 times vs.validators })
    (times - 1) times.toNat 0 (incrementPhase1 times vs.validators)
    (buildHeap (incrementPhase1 times vs.validators) 0 []) none hheapnil hheapbound
  have hmap0 : vals2.map eraseAccum = vs.validators.map eraseAccum := by
    rw [hmap, map_eraseAccum_phase1]
  have hIA : vs.IncrementAccum times =
      some { validators := vals2
             proposer := match prop2 with
                         | none => vs.proposer
                         | some idx => vals2.get? idx
             totalVotingPower :=
               ValidatorSet.totalVotingPowerVal
                 { vs with validators := incrementPhase1 times vs.validators } } := by
    simp only [ValidatorSet.IncrementAccum]
    simp only [hloop]
    cases prop2 <;> rfl
  have hTsum : (incrementPhase1 times vs.validators).map Validator.votingPower =
      vs.validators.map Validator.votingPower := map_votingPower_phase1 times _
  have hT : ValidatorSet.totalVotingPowerVal
      { vs with validators := incrementPhase1 times vs.validators } =
      vs.totalVotingPowerVal := by
    unfold ValidatorSet.totalVotingPowerVal
    rw [hTsum]
  have hsum2 : vals2.map Validator.votingPower = vs.validators.map Validator.votingPower :=
    map_of_map_eraseAccum Validator.votingPower (fun v => rfl) hmap0
  rw [hIA]
  refine ⟨rfl, ?_⟩
  intro vs2 hvs2
  obtain rfl : _ = vs2 := Option.some_inj.mp hvs2
  refine ⟨hmap0, ?_, ?_, ?_, ?_, ?_⟩
  · have hc := congrArg List.length hmap0
    rwa [List.length_map, List.length_map] at hc
  · exact map_of_map_eraseAccum Validator.address (fun v => rfl) hmap0
  · exact map_of_map_eraseAccum Validator.pubKey (fun v => rfl) hmap0
  · exact hsum2
  · rw [totalVotingPowerVal_eq, hsum2, hT]
    by_cases hz : vs.totalVotingPowerVal = 0
    · rw [if_pos hz, hz]
      unfold ValidatorSet.totalVotingPowerVal at hz
      by_cases hz0 : vs.totalVotingPower = 0
      · rw [if_pos hz0] at hz
        exact hz
      · rw [if_neg hz0] at hz
        exact absurd hz hz0
    · rw [if_neg hz]

/-- Frame scenario start: A (power 2) and B (power 1), both accums 0. -/
def wC10Set : ValidatorSet := ⟨[⟨[1], 0, 2, 0⟩, ⟨[2], 0, 1, 0⟩], none, 0⟩

/-- The state `IncrementAccum(2)` produces from `wC10Set`. -/
def wC10Result : ValidatorSet :=
  ⟨[⟨[1], 0, 2, 1⟩, ⟨[2], 0, 1, -1⟩], some ⟨[2], 0, 1, -1⟩, 3⟩

/-- Witness for `incrementAccum_frame`: a two-step rotation on the two-member
set completes, changing only accums and caches. -/
theorem incrementAccum_frame_witness :
    (wC10Set.IncrementAccum 2).isSome ∧
    wC10Result.validators.map eraseAccum = wC10Set.validators.map eraseAccum ∧
    wC10Result.validators.length = wC10Set.validators.length ∧
    wC10Result.validators.map Validator.address =
      wC10Set.validators.map Validator.address ∧
    wC10Result.validators.map Validator.pubKey =
      wC10Set.validators.map Validator.pubKey ∧
    wC10Result.validators.map Validator.votingPower =
      wC10Set.validators.map Validator.votingPower ∧
    wC10Result.totalVotingPowerVal = wC10Set.totalVotingPowerVal :=
  ⟨(incrementAccum_frame wC10Set 2 (by decide) (by decide)).1,
   (incrementAccum_frame wC10Set 2 (by decide) (by decide)).2 wC10Result (by decide)⟩
